import Mathlib

/-!
Shallow embedding of the WPM-overlay tracker core (`src/wpm_overlay.py`):
the event recorder (`calculate_count`), rate estimator (`calculate_wpm`),
input classifier (`on_press`), color mapping (`get_color_for_wpm`) and the
bounded WPM-history buffer, together with theorems settling the spec claims.

Timestamps are modelled as rationals (the Python code uses
`time.perf_counter()` floats; all claim-relevant arithmetic is exact).
The `timestamps` deque becomes a `List ℚ`, oldest first; `popleft` is
dropping from the front, `append` is appending at the tail.
-/

namespace WpmOverlay

/-- `HISTORY_LEN = 60` — capacity of the `wpm_history` deque. -/
def HISTORY_LEN : ℕ := 60

/-- Models Python's `str.isprintable` on a single character.  Exact on the
ASCII range (printable iff `U+0020 ≤ c ≤ U+007E`); every character this
development evaluates concretely is ASCII. -/
def pyIsPrintable (c : Char) : Bool := 0x20 ≤ c.toNat && c.toNat ≤ 0x7E

/-- Models Python's `int()` applied to a non-integral number: truncation
toward zero (`int(2.4) = 2`, `int(-2.4) = -2`). -/
def pyInt (q : ℚ) : ℤ := if 0 ≤ q then ⌊q⌋ else -⌊-q⌋

/-- The mutable state shared between the listener and timer contexts:
`self.timestamps` (event log, oldest first) and `self.current_word_chars`
(word-mode buffer). -/
structure TState where
  timestamps : List ℚ
  current_word_chars : List Char
deriving DecidableEq, Repr

/-- A raw pynput key event: either a `KeyCode` exposing an optional literal
character (`key.char`), or one of the special keys the handler inspects
(`keyboard.Key.space`, `keyboard.Key.enter`), or any other special key. -/
inductive PKey where
  | code (ch : Option Char)
  | space
  | enter
  | other
deriving DecidableEq, Repr

/-- `getattr(key, 'char', None)`: a `KeyCode` exposes its character (possibly
`None`); special keys have no `char` attribute. -/
def keyChar : PKey → Option Char
  | PKey.code c => c
  | _ => none

/-- `WPMTracker.on_press` (src/wpm_overlay.py lines 242-306), restricted to
its effect on the shared state.  `mode` is `COUNT_WORDS_MODE`; `now` is the
`time.perf_counter()` value taken at entry.  The first component of the
intermediate pair is `should_count_keystroke`. -/
def on_press (mode : Bool) (now : ℚ) (key : PKey) (st : TState) : TState :=
  let r : Bool × TState :=
    match keyChar key with
    | some ch =>
      if pyIsPrintable ch then
        (true,
          if mode then
            { st with current_word_chars := st.current_word_chars ++ [ch] }
          else st)
      else
        (false, st)
    | none =>
      match key with
      | PKey.space =>
        (true,
          if mode then
            if st.current_word_chars.length > 0 then
              { st with timestamps := st.timestamps ++ [now],
                        current_word_chars := [] }
            else st
          else st)
      | PKey.enter =>
        (true,
          if mode then
            if st.current_word_chars.length > 0 then
              { st with timestamps := st.timestamps ++ [now],
                        current_word_chars := [] }
            else st
          else st)
      | _ => (false, st)
  if mode = false ∧ r.1 = true then
    { r.2 with timestamps := r.2.timestamps ++ [now] }
  else r.2

/-- `WPMTracker.calculate_count` (lines 309-318): given `now`, prune from the
front every timestamp `< now - max(70, time_window + 5)`, then count the
remaining timestamps `≥ now - time_window`.  Returns the pruned log (the
mutated `self.timestamps`) and the count. -/
def calculate_count (now : ℚ) (time_window : ℚ) (ts : List ℚ) :
    List ℚ × ℕ :=
  let cutoff := now - max 70 (time_window + 5)
  let pruned := ts.dropWhile (fun t => decide (t < cutoff))
  (pruned, (pruned.filter (fun t => decide (now - time_window ≤ t))).length)

/-- `WPMTracker.calculate_wpm` (lines 320-326): `count / 5` words over
`time_window / 60` minutes, truncated to an integer; `0` when the window is
non-positive. -/
def calculate_wpm (now : ℚ) (time_window : ℚ) (ts : List ℚ) : ℤ :=
  let count := (calculate_count now time_window ts).2
  let words : ℚ := (count : ℚ) / 5
  let minutes : ℚ := time_window / 60
  if 0 < minutes then pyInt (words / minutes) else 0

/-- `COLOR_THRESHOLDS` (lines 36-41), as the (name, bound, color) entries in
dict insertion order. -/
def COLOR_THRESHOLDS : List (String × ℤ × String) :=
  [("slow", (30, "#ff4d4f")),
   ("avg", (60, "#ffad14")),
   ("good", (90, "#00c853")),
   ("best", (9999, "#02d9f6"))]

/-- The `for name, (thr, col) in COLOR_THRESHOLDS.items()` loop body of
`get_color_for_wpm`: first entry whose bound is `≥ wpm` wins. -/
def colorScan (wpm : ℤ) : List (String × ℤ × String) → Option String
  | [] => none
  | e :: rest => if wpm ≤ e.2.1 then some e.2.2 else colorScan wpm rest

/-- `WPMTracker.get_color_for_wpm` (lines 329-334): scan the thresholds in
insertion order; if none matches, fall back to `COLOR_THRESHOLDS["best"][1]`
(the dict lookup is modelled by `find?` on the key; the empty-string default
is unreachable for the configured table). -/
def get_color_for_wpm (wpm : ℤ) : String :=
  match colorScan wpm COLOR_THRESHOLDS with
  | some col => col
  | none =>
    match COLOR_THRESHOLDS.find? (fun e => e.1 == "best") with
    | some e => e.2.2
    | none => ""

/-- One `self.wpm_history.append(w15)` on a deque created with
`maxlen = cap`: the tail-append keeps only the most recent `cap` entries,
evicting from the front. -/
def histAppend (cap : ℕ) (h : List ℤ) (x : ℤ) : List ℤ :=
  (h ++ [x]).drop ((h ++ [x]).length - cap)

/-- The sequence of `wpm_history` states: fold `histAppend HISTORY_LEN` over
the samples pushed by successive `update_ui` ticks, starting empty. -/
def histRun (xs : List ℤ) : List ℤ :=
  xs.foldl (histAppend HISTORY_LEN) []

/-- Run the listener over a sequence of (time, key) events. -/
def runKeys (mode : Bool) (evs : List (ℚ × PKey)) (st : TState) : TState :=
  evs.foldl (fun s e => on_press mode e.1 e.2 s) st

/-- The estimator's initial state: empty event log, empty word buffer. -/
def initState : TState := ⟨[], []⟩

/-- The raw events of the "hello world" scenario: the ten letters as
literal characters, the space and the enter as special keys, at times
1, 2, ..., 12. -/
def helloWorldKeys : List (ℚ × PKey) :=
  [(1, PKey.code (some 'h')), (2, PKey.code (some 'e')),
   (3, PKey.code (some 'l')), (4, PKey.code (some 'l')),
   (5, PKey.code (some 'o')), (6, PKey.space),
   (7, PKey.code (some 'w')), (8, PKey.code (some 'o')),
   (9, PKey.code (some 'r')), (10, PKey.code (some 'l')),
   (11, PKey.code (some 'd')), (12, PKey.enter)]

/-! ### Helper lemmas -/

/-- Python truncation agrees with the floor on non-negative inputs. -/
lemma pyInt_eq_floor {q : ℚ} (h : 0 ≤ q) : pyInt q = ⌊q⌋ := if_pos h

/-- On an ascending list, popping the stale front run removes exactly the
stale elements: `dropWhile (< c)` is `filter (c ≤ ·)`. -/
lemma dropWhile_lt_eq_filter (c : ℚ) :
    ∀ ts : List ℚ, ts.Pairwise (· ≤ ·) →
      ts.dropWhile (fun t => decide (t < c))
        = ts.filter (fun t => decide (c ≤ t))
  | [], _ => rfl
  | a :: l, h => by
    rcases List.pairwise_cons.mp h with ⟨ha, hl⟩
    by_cases hc : a < c
    · rw [List.dropWhile_cons, if_pos (by simpa using hc),
        List.filter_cons_of_neg (by simpa using not_le.mpr hc)]
      exact dropWhile_lt_eq_filter c l hl
    · rw [List.dropWhile_cons, if_neg (by simpa using hc),
        List.filter_cons_of_pos (by simpa using not_lt.mp hc)]
      exact congrArg (a :: ·)
        (List.filter_eq_self.mpr fun b hb => by
          simpa using le_trans (not_lt.mp hc) (ha b hb)).symm

/-- An element failing the predicate is never dropped by `dropWhile`. -/
lemma mem_dropWhile_of_neg {α : Type*} (p : α → Bool) :
    ∀ {l : List α} {t : α}, t ∈ l → p t = false → t ∈ l.dropWhile p
  | a :: l, t, ht, hp => by
    by_cases ha : p a = true
    · rw [List.dropWhile_cons, if_pos ha]
      rcases List.mem_cons.mp ht with rfl | ht'
      · rw [hp] at ha; cases ha
      · exact mem_dropWhile_of_neg p ht' hp
    · rw [List.dropWhile_cons, if_neg ha]
      exact ht

/-- `dropWhile` is idempotent. -/
lemma dropWhile_dropWhile {α : Type*} (p : α → Bool) :
    ∀ l : List α, (l.dropWhile p).dropWhile p = l.dropWhile p
  | [] => rfl
  | a :: l => by
    by_cases ha : p a = true
    · rw [List.dropWhile_cons, if_pos ha]
      exact dropWhile_dropWhile p l
    · rw [List.dropWhile_cons, if_neg ha, List.dropWhile_cons, if_neg ha]

/-- Pruning at the retention horizon never touches an element of the query
window: the returned count ignores the pruning, on any event log. -/
lemma count_after_prune (now w : ℚ) :
    ∀ ts : List ℚ,
      ((ts.dropWhile (fun t => decide (t < now - max 70 (w + 5)))).filter
          (fun t => decide (now - w ≤ t))).length
        = (ts.filter (fun t => decide (now - w ≤ t))).length
  | [] => rfl
  | a :: l => by
    by_cases ha : a < now - max 70 (w + 5)
    · rw [List.dropWhile_cons, if_pos (by simpa using ha),
        List.filter_cons_of_neg]
      · exact count_after_prune now w l
      · have : ¬ now - w ≤ a := by
          have := le_max_right (70 : ℚ) (w + 5)
          push_neg
          linarith
        simpa using this
    · rw [List.dropWhile_cons, if_neg (by simpa using ha)]

/-- The count returned by `calculate_count` is the number of logged
timestamps at least `now - time_window`, whatever the log's order. -/
lemma calculate_count_snd (now w : ℚ) (ts : List ℚ) :
    (calculate_count now w ts).2
      = (ts.filter (fun t => decide (now - w ≤ t))).length :=
  count_after_prune now w ts

/-- When every timestamp is at most `now`, counting `≥ now - w` is counting
membership in the closed window `[now - w, now]`. -/
lemma filter_window_congr (now w : ℚ) (ts : List ℚ)
    (hnow : ∀ t ∈ ts, t ≤ now) :
    ts.filter (fun t => decide (now - w ≤ t))
      = ts.filter (fun t => decide (now - w ≤ t ∧ t ≤ now)) := by
  refine List.filter_congr fun t ht => ?_
  have h := hnow t ht
  by_cases h' : now - w ≤ t <;> simp [h', h]

/-- For a positive window, `calculate_wpm` is the floor of
`(count / 5) / (window / 60)`. -/
lemma calculate_wpm_eq_floor (now w : ℚ) (ts : List ℚ) (hw : 0 < w) :
    calculate_wpm now w ts
      = ⌊(((calculate_count now w ts).2 : ℚ) / 5) / (w / 60)⌋ := by
  have hm : (0 : ℚ) < w / 60 := by positivity
  have hq : (0 : ℚ) ≤ (((calculate_count now w ts).2 : ℚ) / 5) / (w / 60) := by
    positivity
  simp only [calculate_wpm, if_pos hm]
  exact pyInt_eq_floor hq

/-! ### Claims -/

/-- C1: `calculate_count` first removes from the front of the log exactly
the timestamps older than `now - max(70, w + 5)`, then returns, without
removing them, the number of remaining timestamps `t ≥ now - w`; for a
sorted log of past timestamps this count is the number of timestamps in
`[now - w, now]`. -/
theorem claim_C1 (now w : ℚ) (ts : List ℚ)
    (hsorted : ts.Pairwise (· ≤ ·)) (hnow : ∀ t ∈ ts, t ≤ now) :
    (calculate_count now w ts).1
        = ts.filter (fun t => decide (now - max 70 (w + 5) ≤ t)) ∧
    (calculate_count now w ts).2
        = (ts.filter (fun t => decide (now - w ≤ t ∧ t ≤ now))).length := by
  constructor
  · exact dropWhile_lt_eq_filter (now - max 70 (w + 5)) ts hsorted
  · rw [calculate_count_snd, filter_window_congr now w ts hnow]

theorem claim_C1_witness :
    (calculate_count 100 15 [20, 90, 95]).1
        = [(20 : ℚ), 90, 95].filter
            (fun t => decide ((100 : ℚ) - max 70 (15 + 5) ≤ t)) ∧
    (calculate_count 100 15 [20, 90, 95]).2
        = ([(20 : ℚ), 90, 95].filter
            (fun t => decide ((100 : ℚ) - 15 ≤ t ∧ t ≤ 100))).length :=
  claim_C1 100 15 [20, 90, 95] (by decide) (by decide)

/-- C3: no call to `calculate_count`, for any window `w`, removes a
timestamp `t` with `now - t ≤ 65` from the log: every such timestamp is
still in the pruned log the call leaves behind. -/
theorem claim_C3 (now w t : ℚ) (ts : List ℚ)
    (ht : t ∈ ts) (hrecent : now - t ≤ 65) :
    t ∈ (calculate_count now w ts).1 := by
  refine mem_dropWhile_of_neg _ ht ?_
  have h70 : (70 : ℚ) ≤ max 70 (w + 5) := le_max_left _ _
  have : ¬ t < now - max 70 (w + 5) := by push_neg; linarith
  simpa using this

theorem claim_C3_witness : (90 : ℚ) ∈ (calculate_count 100 15 [90]).1 :=
  claim_C3 100 15 90 [90] (by decide) (by norm_num)

/-- C2: `calculate_wpm` returns `0` for a non-positive window without
signaling an error; for a positive window it returns
`floor((count / 5) / (w / 60))` (truncation toward zero equals the floor
here, the value being non-negative); in particular three timestamps at
relative times `-14.9`, `-10`, `-1` give `wpm(15) = 2`. -/
theorem claim_C2 :
    (∀ (now w : ℚ) (ts : List ℚ), w ≤ 0 → calculate_wpm now w ts = 0) ∧
    (∀ (now w : ℚ) (ts : List ℚ), 0 < w →
        calculate_wpm now w ts
          = ⌊(((calculate_count now w ts).2 : ℚ) / 5) / (w / 60)⌋) ∧
    (∀ now : ℚ, calculate_wpm now 15 [now - 14.9, now - 10, now - 1] = 2) := by
  refine ⟨fun now w ts hw => ?_, fun now w ts hw => calculate_wpm_eq_floor now w ts hw, fun now => ?_⟩
  · have hm : ¬ (0 : ℚ) < w / 60 := by
      rw [not_lt]
      exact div_nonpos_iff.mpr (Or.inr ⟨hw, by norm_num⟩)
    simp only [calculate_wpm, if_neg hm]
  · rw [calculate_wpm_eq_floor now 15 _ (by norm_num), calculate_count_snd]
    have e : List.filter (fun t => decide (now - 15 ≤ t))
        [now - 14.9, now - 10, now - 1] = [now - 14.9, now - 10, now - 1] := by
      refine List.filter_eq_self.mpr fun a ha => ?_
      simp only [List.mem_cons, List.not_mem_nil, or_false] at ha
      rcases ha with rfl | rfl | rfl <;>
        · simp only [decide_eq_true_eq]
          linarith
    rw [e]
    show ⌊((3 : ℚ) / 5) / (15 / 60)⌋ = 2
    rw [show ((3 : ℚ) / 5) / (15 / 60) = 12 / 5 by norm_num, Int.floor_eq_iff]
    norm_num

theorem claim_C2_witness :
    calculate_wpm 0 (-1) [] = 0 ∧
    calculate_wpm 100 15 [90]
      = ⌊(((calculate_count 100 15 [90]).2 : ℚ) / 5) / ((15 : ℚ) / 60)⌋ ∧
    calculate_wpm 100 15 [100 - 14.9, 100 - 10, 100 - 1] = 2 :=
  ⟨claim_C2.1 0 (-1) [] (by norm_num),
   claim_C2.2.1 100 15 [90] (by norm_num),
   claim_C2.2.2 100⟩

/-- C8: for a fixed positive window and query time, the computed WPM is
monotonically non-decreasing in the number of logged timestamps inside
`[now - w, now]`. -/
theorem claim_C8 (now w : ℚ) (ts₁ ts₂ : List ℚ) (hw : 0 < w)
    (h₁ : ∀ t ∈ ts₁, t ≤ now) (h₂ : ∀ t ∈ ts₂, t ≤ now)
    (hcount : (ts₂.filter (fun t => decide (now - w ≤ t ∧ t ≤ now))).length
        ≤ (ts₁.filter (fun t => decide (now - w ≤ t ∧ t ≤ now))).length) :
    calculate_wpm now w ts₂ ≤ calculate_wpm now w ts₁ := by
  rw [calculate_wpm_eq_floor now w ts₂ hw, calculate_wpm_eq_floor now w ts₁ hw]
  apply Int.floor_le_floor
  have hc : ((calculate_count now w ts₂).2 : ℚ)
      ≤ ((calculate_count now w ts₁).2 : ℚ) := by
    have : (calculate_count now w ts₂).2 ≤ (calculate_count now w ts₁).2 := by
      rw [calculate_count_snd, calculate_count_snd,
        filter_window_congr now w ts₁ h₁, filter_window_congr now w ts₂ h₂]
      exact hcount
    exact_mod_cast this
  have hm : (0 : ℚ) < w / 60 := by positivity
  gcongr

theorem claim_C8_witness : calculate_wpm 100 15 [] ≤ calculate_wpm 100 15 [95] :=
  claim_C8 100 15 [95] [] (by norm_num) (by decide) (by decide) (by simp)

/-- C9: querying `calculate_count` twice in immediate succession (same
`now`, no events appended in between, the second call running on the log
the first left behind) prunes nothing further and returns the same count. -/
theorem claim_C9 (now w : ℚ) (ts : List ℚ) :
    calculate_count now w ((calculate_count now w ts).1)
      = calculate_count now w ts := by
  simp only [calculate_count]
  rw [dropWhile_dropWhile]

/-- Appending to the history deque keeps exactly the most recent `cap`
samples: one `histAppend` step preserves the "last `cap` elements"
characterization. -/
lemma histAppend_step (cap : ℕ) (hcap1 : 0 < cap) (xs : List ℤ) (x : ℤ) :
    histAppend cap (xs.drop (xs.length - cap)) x
      = (xs ++ [x]).drop ((xs ++ [x]).length - cap) := by
  rcases Nat.lt_or_ge xs.length cap with hcap | hcap
  · have h0 : xs.length - cap = 0 := Nat.sub_eq_zero_of_le (le_of_lt hcap)
    rw [h0, List.drop_zero, histAppend]
  · have hdl : (xs.drop (xs.length - cap)).length = cap := by
      rw [List.length_drop]; omega
    rw [histAppend, List.length_append, List.length_append, hdl,
      List.length_cons, List.length_nil]
    have e1 : cap + (0 + 1) - cap = 1 := by omega
    rw [e1, List.drop_append_of_le_length (by rw [hdl]; omega),
      List.drop_append_of_le_length
        (by omega : xs.length + (0 + 1) - cap ≤ xs.length),
      List.drop_drop]
    congr 2
    omega

/-- C7: the `wpm_history` deque (capacity `HISTORY_LEN`) never exceeds its
capacity, and after any sequence of appended samples it holds exactly the
most recent `HISTORY_LEN` of them in insertion order — after
`HISTORY_LEN + k` appends, the first `k` (the oldest) have been evicted. -/
theorem claim_C7 (xs : List ℤ) :
    (histRun xs).length ≤ HISTORY_LEN ∧
    histRun xs = xs.drop (xs.length - HISTORY_LEN) := by
  have key : histRun xs = xs.drop (xs.length - HISTORY_LEN) := by
    induction xs using List.reverseRecOn with
    | nil => rfl
    | append_singleton ys y ih =>
      rw [histRun, List.foldl_append]
      simp only [List.foldl_cons, List.foldl_nil]
      rw [show ys.foldl (histAppend HISTORY_LEN) [] = histRun ys from rfl, ih]
      exact histAppend_step HISTORY_LEN (by decide) ys y
  refine ⟨?_, key⟩
  rw [key, List.length_drop]
  omega

/-- C4: in word mode a space or enter emits exactly one timestamp and
clears the word buffer when the buffer is non-empty, emits nothing when it
is empty, and a printable character only buffers; the "hello world"
sequence records exactly 2 timestamps, with an empty buffer after each
completing event. -/
theorem claim_C4 :
    (∀ (now : ℚ) (st : TState), st.current_word_chars ≠ [] →
        on_press true now PKey.space st
            = ⟨st.timestamps ++ [now], []⟩ ∧
        on_press true now PKey.enter st
            = ⟨st.timestamps ++ [now], []⟩) ∧
    (∀ (now : ℚ) (st : TState), st.current_word_chars = [] →
        on_press true now PKey.space st = st ∧
        on_press true now PKey.enter st = st) ∧
    (∀ (now : ℚ) (c : Char) (st : TState), pyIsPrintable c = true →
        on_press true now (PKey.code (some c)) st
            = ⟨st.timestamps, st.current_word_chars ++ [c]⟩) ∧
    (runKeys true helloWorldKeys initState).timestamps.length = 2 ∧
    (runKeys true (helloWorldKeys.take 6) initState).current_word_chars = [] ∧
    (runKeys true helloWorldKeys initState).current_word_chars = [] := by
  refine ⟨fun now st h => ?_, fun now st h => ?_, fun now c st h => ?_,
    by decide, by decide, by decide⟩
  · have hpos : st.current_word_chars.length > 0 := List.length_pos.mpr h
    constructor <;> simp [on_press, keyChar, hpos]
  · constructor <;> simp [on_press, keyChar, h]
  · simp [on_press, keyChar, h]

theorem claim_C4_witness :
    on_press true 5 PKey.space ⟨[], ['h']⟩ = ⟨[5], []⟩ ∧
    on_press true 6 PKey.enter ⟨[(2 : ℚ)], []⟩ = ⟨[(2 : ℚ)], []⟩ ∧
    on_press true 7 (PKey.code (some 'a')) ⟨[], []⟩ = ⟨[], ['a']⟩ :=
  ⟨(claim_C4.1 5 ⟨[], ['h']⟩ (by decide)).1,
   (claim_C4.2.1 6 ⟨[(2 : ℚ)], []⟩ (by decide)).2,
   claim_C4.2.2.1 7 'a' ⟨[], []⟩ (by decide)⟩

/-- C5: in keystroke mode every countable event — printable literal
character, or symbolic space or enter — appends exactly one timestamp
immediately, regardless of the word buffer; the 12 raw "hello world"
events record exactly 12 timestamps. -/
theorem claim_C5 :
    (∀ (now : ℚ) (c : Char) (st : TState), pyIsPrintable c = true →
        on_press false now (PKey.code (some c)) st
            = ⟨st.timestamps ++ [now], st.current_word_chars⟩) ∧
    (∀ (now : ℚ) (st : TState),
        on_press false now PKey.space st
            = ⟨st.timestamps ++ [now], st.current_word_chars⟩) ∧
    (∀ (now : ℚ) (st : TState),
        on_press false now PKey.enter st
            = ⟨st.timestamps ++ [now], st.current_word_chars⟩) ∧
    (runKeys false helloWorldKeys initState).timestamps.length = 12 := by
  refine ⟨fun now c st h => ?_, fun now st => ?_, fun now st => ?_, by decide⟩
  · simp [on_press, keyChar, h]
  · simp [on_press, keyChar]
  · simp [on_press, keyChar]

theorem claim_C5_witness :
    on_press false 3 (PKey.code (some 'a')) ⟨[], ['x']⟩ = ⟨[3], ['x']⟩ :=
  claim_C5.1 3 'a' ⟨[], ['x']⟩ (by decide)

/-- C10: in both modes, a key event exposing a literal character that is
not printable (such as enter delivered as `'\r'` or tab as `'\t'`)
records no timestamp and leaves the word buffer unchanged: the symbolic
space/enter branch is reached only when no literal character is present. -/
theorem claim_C10 :
    (∀ (mode : Bool) (now : ℚ) (c : Char) (st : TState),
        pyIsPrintable c = false →
        on_press mode now (PKey.code (some c)) st = st) ∧
    pyIsPrintable '\r' = false ∧ pyIsPrintable '\t' = false := by
  refine ⟨fun mode now c st h => ?_, by decide, by decide⟩
  simp [on_press, keyChar, h]

theorem claim_C10_witness :
    on_press true 1 (PKey.code (some '\r')) ⟨[], ['h']⟩ = ⟨[], ['h']⟩ ∧
    on_press false 1 (PKey.code (some '\t')) ⟨[], []⟩ = ⟨[], []⟩ :=
  ⟨claim_C10.1 true 1 '\r' ⟨[], ['h']⟩ (by decide),
   claim_C10.1 false 1 '\t' ⟨[], []⟩ (by decide)⟩

/-- C6: `get_color_for_wpm` scans the configured bands in insertion order
and returns the color of the first band whose inclusive bound is at least
the given wpm, the last band also catching every wpm beyond all bounds:
30 ↦ slow, 31 ↦ avg, 9999 ↦ best, 10000 ↦ best. -/
theorem claim_C6 :
    (∀ wpm : ℤ, wpm ≤ 30 → get_color_for_wpm wpm = "#ff4d4f") ∧
    (∀ wpm : ℤ, 30 < wpm → wpm ≤ 60 → get_color_for_wpm wpm = "#ffad14") ∧
    (∀ wpm : ℤ, 60 < wpm → wpm ≤ 90 → get_color_for_wpm wpm = "#00c853") ∧
    (∀ wpm : ℤ, 90 < wpm → wpm ≤ 9999 → get_color_for_wpm wpm = "#02d9f6") ∧
    (∀ wpm : ℤ, 9999 < wpm → get_color_for_wpm wpm = "#02d9f6") ∧
    get_color_for_wpm 30 = "#ff4d4f" ∧
    get_color_for_wpm 31 = "#ffad14" ∧
    get_color_for_wpm 9999 = "#02d9f6" ∧
    get_color_for_wpm 10000 = "#02d9f6" := by
  refine ⟨fun wpm h => ?_, fun wpm h h' => ?_, fun wpm h h' => ?_,
    fun wpm h h' => ?_, fun wpm h => ?_, by decide, by decide, by decide,
    by decide⟩
  · simp [get_color_for_wpm, colorScan, COLOR_THRESHOLDS, h]
  · simp [get_color_for_wpm, colorScan, COLOR_THRESHOLDS,
      show ¬ wpm ≤ 30 by omega, h']
  · simp [get_color_for_wpm, colorScan, COLOR_THRESHOLDS,
      show ¬ wpm ≤ 30 by omega, show ¬ wpm ≤ 60 by omega, h']
  · simp [get_color_for_wpm, colorScan, COLOR_THRESHOLDS,
      show ¬ wpm ≤ 30 by omega, show ¬ wpm ≤ 60 by omega,
      show ¬ wpm ≤ 90 by omega, h']
  · simp [get_color_for_wpm, colorScan, COLOR_THRESHOLDS,
      show ¬ wpm ≤ 30 by omega, show ¬ wpm ≤ 60 by omega,
      show ¬ wpm ≤ 90 by omega, show ¬ wpm ≤ 9999 by omega]

theorem claim_C6_witness :
    get_color_for_wpm 25 = "#ff4d4f" ∧
    get_color_for_wpm 45 = "#ffad14" ∧
    get_color_for_wpm 75 = "#00c853" ∧
    get_color_for_wpm 100 = "#02d9f6" ∧
    get_color_for_wpm 123456 = "#02d9f6" :=
  ⟨claim_C6.1 25 (by decide), claim_C6.2.1 45 (by decide) (by decide),
   claim_C6.2.2.1 75 (by decide) (by decide),
   claim_C6.2.2.2.1 100 (by decide) (by decide),
   claim_C6.2.2.2.2.1 123456 (by decide)⟩

end WpmOverlay
